import Mathlib

/-!
Verification of the extraction-and-scoring pipeline of the ASO scraper
server (src/server.js).  The JavaScript source is shallowly embedded:
strings are modelled as Lean strings / lists of characters, JS numbers as
rationals, and the nullable / NaN-carrying JS values as an explicit
inductive type.  Browser and network collaborators (which only deliver raw
page content to the pipeline) are modelled as explicit inputs.
-/

namespace Aso

/-! ## JavaScript character-class primitives -/

/-- Whitespace as matched by the JavaScript regular-expression class
backslash-s and by the trim method: ECMAScript WhiteSpace together with
LineTerminator code points. -/
def jsWs (c : Char) : Bool :=
  c = ' ' || c = '\t' || c = '\n' || c = '\r' ||
  c = '\u000B' || c = '\u000C' || c = '\u00A0' || c = '\u1680' ||
  ('\u2000' ≤ c && c ≤ '\u200A') ||
  c = '\u2028' || c = '\u2029' || c = '\u202F' || c = '\u205F' ||
  c = '\u3000' || c = '\uFEFF'

/-- Characters removed by the second replace in cleanText: the class
U+200B through U+200D together with U+FEFF. -/
def zwChar (c : Char) : Bool :=
  ('\u200B' ≤ c && c ≤ '\u200D') || c = '\uFEFF'

/-! ## cleanText (src/server.js lines 54-57)

cleanText first collapses every maximal whitespace run to a single space
(replace of the global pattern backslash-s-plus by a space), then removes
the zero-width characters, then trims.  The collapse is modelled by a
one-character-lookbehind recursion: the flag records whether the previous
input character was whitespace (in which case the current whitespace
character belongs to an already-collapsed run and is dropped). -/

def collapseGo (prevWs : Bool) : List Char → List Char
  | [] => []
  | c :: cs =>
    if jsWs c then
      if prevWs then collapseGo true cs else ' ' :: collapseGo true cs
    else c :: collapseGo false cs

/-- Model of the replace of the global whitespace-run pattern by a single
space character. -/
def collapseWs (l : List Char) : List Char := collapseGo false l

/-- Model of the replace removing zero-width characters. -/
def removeZw (l : List Char) : List Char := l.filter (fun c => !zwChar c)

/-- Model of the JavaScript trim method: drop leading and trailing
whitespace. -/
def jsTrim (l : List Char) : List Char :=
  ((l.dropWhile jsWs).reverse.dropWhile jsWs).reverse

/-- Model of cleanText (lines 54-57): a falsy argument (null or the empty
string) yields the empty string, otherwise collapse whitespace runs, strip
zero-width characters, and trim. -/
def cleanText (s : Option String) : String :=
  match s with
  | none => ""
  | some s => if s = "" then "" else String.mk (jsTrim (removeZw (collapseWs s.data)))

/-! ## parseInstallString (src/server.js lines 37-51) -/

/-- Result value of a JavaScript expression that is either null, NaN, or a
finite number (numbers are idealised as rationals). -/
inductive JsValue where
  | null : JsValue
  | nan : JsValue
  | num : ℚ → JsValue
deriving DecidableEq, Repr

/-- Character class kept by the replace in line 40 of the source: the
regex class negation of digits, K, M, k, m, b and the dot.  Note the class
contains lowercase b but not uppercase B. -/
def keepChar (c : Char) : Bool :=
  c.isDigit || c = 'K' || c = 'M' || c = 'k' || c = 'm' || c = 'b' || c = '.'

/-- Numeric value of a digit string (most significant first). -/
def digitsVal (l : List Char) : ℕ :=
  l.foldl (fun a c => a * 10 + (c.toNat - 48)) 0

/-- Model of the JavaScript parseFloat applied to the normalized install
strings of this program.  After normalization the alphabet is digits,
K, M, B and the dot, so sign characters, exponents and leading whitespace
cannot occur; parseFloat then accepts a leading digit-sequence with an
optional fractional part and returns NaN (here: none) when no digit is
found before the remainder. -/
def leadingFloat (l : List Char) : Option ℚ :=
  let ip := l.takeWhile Char.isDigit
  let r1 := l.drop ip.length
  match r1 with
  | '.' :: r2 =>
    let fp := r2.takeWhile Char.isDigit
    if ip.isEmpty && fp.isEmpty then none
    else some ((digitsVal ip : ℚ) + (digitsVal fp : ℚ) / ((10 : ℚ) ^ fp.length))
  | _ => if ip.isEmpty then none else some ((digitsVal ip : ℚ))

/-- Model of the JavaScript parseInt with radix 10 applied to the
normalized install strings of this program (no sign or leading whitespace
can occur in the stripped alphabet): the maximal leading digit run, or
NaN (none) when there is no leading digit. -/
def leadingInt (l : List Char) : Option ℕ :=
  let ip := l.takeWhile Char.isDigit
  if ip.isEmpty then none else some (digitsVal ip)

/-- Model of the string replace of a single-character pattern given as a
plain string: only the first occurrence is removed. -/
def removeFirst (t : Char) : List Char → List Char
  | [] => []
  | c :: cs => if c = t then cs else c :: removeFirst t cs

/-- Multiplication of a parseFloat result by a magnitude, propagating NaN
exactly as the JavaScript arithmetic does. -/
def floatTimes (o : Option ℚ) (m : ℚ) : JsValue :=
  match o with
  | some q => JsValue.num (q * m)
  | none => JsValue.nan

/-- Model of parseInstallString (lines 37-51).  A falsy argument (null or
the empty string) gives null; otherwise the string is stripped down to the
class of keepChar and uppercased; a string containing M (after
uppercasing) takes the float branch with factor 1000000, else K takes the
float branch with factor 1000, else the integer branch parses the
remaining digits (the replace of commas and plus signs there is a no-op
because both characters were already stripped), returning null when the
integer parse yields NaN. -/
def parseInstallString (s : Option String) : JsValue :=
  match s with
  | none => JsValue.null
  | some s =>
    if s = "" then JsValue.null else
    let normalized := (s.data.filter keepChar).map Char.toUpper
    if normalized.contains 'M' then
      floatTimes (leadingFloat (removeFirst 'M' normalized)) 1000000
    else if normalized.contains 'K' then
      floatTimes (leadingFloat (removeFirst 'K' normalized)) 1000
    else
      let digits := normalized.filter (fun c => !(c = ',' || c = '+'))
      match leadingInt digits with
      | none => JsValue.null
      | some n => JsValue.num (n : ℚ)

/-! ## Spec-side install parser (section 4.3 of the specification)

The claim about the install parser is a refinement claim: the algorithm
described by the specification text is formalised separately and compared
with the embedding of the source.  The shared helpers leadingFloat,
leadingInt, removeFirst and floatTimes model JavaScript builtins, not
program logic. -/

/-- Character class of the stripping step as the specification words it:
digits, K, M and B case-insensitively, and the dot. -/
def specKeep (c : Char) : Bool :=
  c.isDigit || c = 'K' || c = 'k' || c = 'M' || c = 'm' || c = 'B' || c = 'b' || c = '.'

/-- Strip-and-uppercase normalization as the specification words it. -/
def specNormalize : List Char → List Char
  | [] => []
  | c :: cs => if specKeep c then c.toUpper :: specNormalize cs else specNormalize cs

/-- Install parser following the specification text of section 4.3 with
the case-insensitive K, M and B class. -/
def specParseInstalls (s : Option String) : JsValue :=
  match s with
  | none => JsValue.null
  | some s =>
    if s = "" then JsValue.null else
    let normalized := specNormalize s.data
    if normalized.contains 'M' then
      floatTimes (leadingFloat (removeFirst 'M' normalized)) 1000000
    else if normalized.contains 'K' then
      floatTimes (leadingFloat (removeFirst 'K' normalized)) 1000
    else
      let digits := normalized.filter (fun c => !(c = ',' || c = '+'))
      match leadingInt digits with
      | none => JsValue.null
      | some n => JsValue.num (n : ℚ)

/-- Amended character class: K and M case-insensitively, lowercase b only
(uppercase B is stripped by the source regex), and the dot. -/
def specKeepAmended (c : Char) : Bool :=
  c.isDigit || c = 'K' || c = 'k' || c = 'M' || c = 'm' || c = 'b' || c = '.'

/-- Strip-and-uppercase normalization with the amended character class. -/
def specNormalizeAmended : List Char → List Char
  | [] => []
  | c :: cs => if specKeepAmended c then c.toUpper :: specNormalizeAmended cs else specNormalizeAmended cs

/-- Install parser following the amended specification text. -/
def specParseInstallsAmended (s : Option String) : JsValue :=
  match s with
  | none => JsValue.null
  | some s =>
    if s = "" then JsValue.null else
    let normalized := specNormalizeAmended s.data
    if normalized.contains 'M' then
      floatTimes (leadingFloat (removeFirst 'M' normalized)) 1000000
    else if normalized.contains 'K' then
      floatTimes (leadingFloat (removeFirst 'K' normalized)) 1000
    else
      let digits := normalized.filter (fun c => !(c = ',' || c = '+'))
      match leadingInt digits with
      | none => JsValue.null
      | some n => JsValue.num (n : ℚ)

theorem specKeepAmended_eq_keepChar (c : Char) : specKeepAmended c = keepChar c := by
  rw [Bool.eq_iff_iff]
  simp only [specKeepAmended, keepChar, Bool.or_eq_true, decide_eq_true_eq]
  tauto

theorem specNormalizeAmended_eq (l : List Char) :
    specNormalizeAmended l = (l.filter keepChar).map Char.toUpper := by
  induction l with
  | nil => rfl
  | cons c cs ih =>
    simp only [specNormalizeAmended, specKeepAmended_eq_keepChar, List.filter_cons]
    by_cases h : keepChar c
    · simp [h, ih]
    · simp [h, ih]

/-! ## Difficulty scorer (src/server.js lines 279-291)

JavaScript numbers are idealised as rationals; all values reachable from
non-negative finite inputs are finite, so the isFinite test of line 289 is
identically true in the model and only the non-positivity test remains. -/

/-- The TITLE_BOOST constant of line 29. -/
def TITLE_BOOST : ℕ := 3

/-- Model of the JavaScript Math.round for the non-negative values this
program rounds: floor of the argument plus one half. -/
def jsRound (q : ℚ) : ℤ := ⌊q + 1 / 2⌋

/-- Model of the per-keyword difficulty computation of lines 285-289:
scale factor, raw difficulty, rounded and clamped value, and the fallback
replacing a non-positive result. -/
def difficultyOf (avgInstalls score : ℚ) : ℤ :=
  let scale : ℚ := max 1 (avgInstalls / 100000)
  let difficultyRaw : ℚ := (avgInstalls / (1 + score)) / max 1 scale
  let difficulty : ℤ := jsRound (min 100 difficultyRaw)
  if difficulty ≤ 0 then min 100 (max 1 (jsRound (50 / (1 + score)))) else difficulty

theorem jsRound_le_100 (q : ℚ) (h : q ≤ 100) : jsRound q ≤ 100 := by
  have : q + 1 / 2 < 101 := by linarith
  exact Int.le_of_lt_add_one (by exact_mod_cast Int.floor_lt.mpr (by exact_mod_cast this))

/-- The difficulty value is an integer in the closed interval from 1 to
100 for every non-negative average-install volume and every non-negative
frequency score. -/
theorem difficulty_in_range (avgInstalls score : ℚ)
    (h1 : 0 ≤ avgInstalls) (h2 : 0 ≤ score) :
    1 ≤ difficultyOf avgInstalls score ∧ difficultyOf avgInstalls score ≤ 100 := by
  simp only [difficultyOf]
  split_ifs with hd
  · exact ⟨le_min (by norm_num) (le_max_left _ _), min_le_left _ _⟩
  · exact ⟨by omega, jsRound_le_100 _ (min_le_left _ _)⟩

theorem difficulty_in_range_witness :
    (0 : ℚ) ≤ 500000 ∧ (0 : ℚ) ≤ 3 ∧
    1 ≤ difficultyOf 500000 3 ∧ difficultyOf 500000 3 ≤ 100 :=
  ⟨by decide, by decide,
   (difficulty_in_range 500000 3 (by decide) (by decide)).1,
   (difficulty_in_range 500000 3 (by decide) (by decide)).2⟩

/-- C3: the install parser does not satisfy the never-NaN contract: on the
input M (and likewise on free text such as Coming soon, whose only kept
character is an m), the M branch multiplies the NaN result of parseFloat
of an empty string by one million and returns NaN rather than null. -/
theorem parseInstall_nan_on_M :
    parseInstallString (some "M") = JsValue.nan ∧
    parseInstallString (some "Coming soon") = JsValue.nan := by
  exact ⟨rfl, rfl⟩

/-- C5 counterexample: the stripping class of the source is not
case-insensitive for B.  On the input B5 the source strips the uppercase B
and parses 5, while the algorithm worded by the specification keeps the B
and then fails the integer parse, yielding null. -/
theorem parseInstalls_uppercaseB_counterexample :
    parseInstallString (some "B5") ≠ specParseInstalls (some "B5") := by
  decide

/-- C5 amended: the install parser satisfies the five test vectors, and it
agrees with the specification algorithm amended so that the stripping
class keeps K and M case-insensitively but only the lowercase b (uppercase
B is stripped). -/
theorem parseInstalls_amended :
    (∀ s, parseInstallString s = specParseInstallsAmended s) ∧
    parseInstallString (some "1,000+") = JsValue.num 1000 ∧
    parseInstallString (some "10M") = JsValue.num 10000000 ∧
    parseInstallString (some "500K") = JsValue.num 500000 ∧
    parseInstallString (some "") = JsValue.null ∧
    parseInstallString none = JsValue.null := by
  refine ⟨?_, by decide, ?_, ?_, by decide, rfl⟩
  · intro s
    cases s with
    | none => rfl
    | some s =>
      by_cases h : s = ""
      · simp [parseInstallString, specParseInstallsAmended, h]
      · simp only [parseInstallString, specParseInstallsAmended, h, if_false,
          specNormalizeAmended_eq]
  · have h : parseInstallString (some "10M") = JsValue.num (((10 : ℕ) : ℚ) * 1000000) := rfl
    rw [h]; norm_num
  · have h : parseInstallString (some "500K") = JsValue.num (((500 : ℕ) : ℚ) * 1000) := rfl
    rw [h]; norm_num

/-! ## Candidate extractor (src/server.js lines 118-136)

The search page is abstracted by the href attributes of its anchors in
document order (the structured cheerio pass) together with its raw markup
string (the regex fallback pass).  Both regexes look for the literal
detail-page URL fragment followed by a non-empty capture; the structured
scan finds the first match inside each href, the raw scan is a global exec
loop resuming after each full match. -/

/-- The literal part shared by both extraction regexes. -/
def detailLit : List Char := "/store/apps/details?id=".data

/-- Capture class of the structured-scan regex: any character other than
an ampersand or a slash. -/
def hrefIdChar (c : Char) : Bool := !(c = '&' || c = '/')

/-- Capture class of the raw-scan regex: word characters or a dot. -/
def wordDotChar (c : Char) : Bool := c.isAlphanum || c = '_' || c = '.'

/-- Attempt of the structured-scan regex at one start position: the
literal must be a prefix and the greedy capture must be non-empty. -/
def tryHrefAt (l : List Char) : Option (List Char) :=
  if detailLit.isPrefixOf l then
    let cap := (l.drop detailLit.length).takeWhile hrefIdChar
    if cap.isEmpty then none else some cap
  else none

/-- First match of the structured-scan regex inside a string: start
positions are tried left to right. -/
def hrefFirstMatch : List Char → Option (List Char)
  | [] => none
  | c :: cs =>
    match tryHrefAt (c :: cs) with
    | some cap => some cap
    | none => hrefFirstMatch cs

/-- Package id contributed by one anchor of the search page (lines
122-124): a falsy href contributes nothing, otherwise the first capture of
the structured-scan regex. -/
def hrefId (href : String) : Option String :=
  if href = "" then none else (hrefFirstMatch href.data).map String.mk

/-- Insertion into the JavaScript Set of line 118: insertion order is
kept and an already-present element is ignored. -/
def dedupStep (acc : List String) (a : String) : List String :=
  if a ∈ acc then acc else acc ++ [a]

/-- Order-preserving first-occurrence deduplication: the contents of a
JavaScript Set fed the elements of the list in order. -/
def dedupFirst (l : List String) : List String := l.foldl dedupStep []

/-- Body of the each-callback of lines 120-125: a early return once the
set has reached the limit, otherwise the anchor match is inserted. -/
def anchorStep (limit : ℕ) (acc : List String) (href : String) : List String :=
  if limit ≤ acc.length then acc
  else
    match hrefId href with
    | some id => dedupStep acc id
    | none => acc

/-- The structured anchor pass over all anchors of the page. -/
def anchorPass (limit : ℕ) (anchorHrefs : List String) : List String :=
  anchorHrefs.foldl (anchorStep limit) []

/-- Attempt of the raw-scan regex at one start position, returning the
capture and the remainder of the input after the full match. -/
def tryRawAt (l : List Char) : Option (List Char × List Char) :=
  if detailLit.isPrefixOf l then
    let rest := l.drop detailLit.length
    let cap := rest.takeWhile wordDotChar
    if cap.isEmpty then none else some (cap, rest.drop cap.length)
  else none

/-- Global exec loop of the raw-scan regex: each successful match resumes
immediately after its end, a failed position advances by one character.
The fuel starts at the input length; every step consumes at least one
character (a match consumes the whole literal and a non-empty capture), so
the fuel never runs out before the input does. -/
def rawScanGo : ℕ → List Char → List (List Char)
  | 0, _ => []
  | _ + 1, [] => []
  | fuel + 1, c :: cs =>
    match tryRawAt (c :: cs) with
    | some (cap, rest) => cap :: rawScanGo fuel rest
    | none => rawScanGo fuel cs

/-- The successive captures of the fallback regex over the raw markup
(lines 129-133). -/
def rawIds (html : String) : List String :=
  (rawScanGo html.data.length html.data).map String.mk

/-- Body of the fallback while-loop of lines 131-133: insertion stops as
soon as the set reaches the limit. -/
def fillLoop (limit : ℕ) : List String → List String → List String
  | acc, [] => acc
  | acc, id :: ids =>
    if limit ≤ acc.length then acc
    else fillLoop limit (dedupStep acc id) ids

/-- Model of the candidate extraction of lines 118-136: structured anchor
pass, raw-text fallback pass, then the final slice to the limit. -/
def extractCandidates (anchorHrefs : List String) (html : String) (limit : ℕ) : List String :=
  (fillLoop limit (anchorPass limit anchorHrefs) (rawIds html)).take limit

/-- Guarded insertion: a no-op once the accumulator has reached the
limit, otherwise a Set insertion. -/
def capStep (limit : ℕ) (acc : List String) (a : String) : List String :=
  if limit ≤ acc.length then acc else dedupStep acc a

theorem capStep_of_full (limit : ℕ) (acc : List String) (ids : List String)
    (h : limit ≤ acc.length) : ids.foldl (capStep limit) acc = acc := by
  induction ids with
  | nil => rfl
  | cons a ids ih => simp only [List.foldl_cons, capStep, if_pos h, ih]

theorem fillLoop_eq_foldl (limit : ℕ) (ids acc : List String) :
    fillLoop limit acc ids = ids.foldl (capStep limit) acc := by
  induction ids generalizing acc with
  | nil => rfl
  | cons a ids ih =>
    simp only [fillLoop, List.foldl_cons, capStep]
    by_cases h : limit ≤ acc.length
    · simp only [h, if_pos, if_true]
      exact (capStep_of_full limit acc ids h).symm
    · simp only [h, if_neg, if_false, ih]

theorem anchorPass_eq_foldl (limit : ℕ) (anchorHrefs : List String) (acc : List String) :
    anchorHrefs.foldl (anchorStep limit) acc
      = (anchorHrefs.filterMap hrefId).foldl (capStep limit) acc := by
  induction anchorHrefs generalizing acc with
  | nil => rfl
  | cons href hrefs ih =>
    simp only [List.foldl_cons, List.filterMap_cons]
    cases h : hrefId href with
    | none =>
      have : anchorStep limit acc href = acc := by
        unfold anchorStep
        rw [h]
        split <;> rfl
      rw [this, ih]
    | some id =>
      have : anchorStep limit acc href = capStep limit acc id := by
        unfold anchorStep capStep
        rw [h]
      rw [this, List.foldl_cons, ih]

theorem length_dedupStep_le (acc : List String) (a : String) :
    (dedupStep acc a).length ≤ acc.length + 1 := by
  unfold dedupStep
  split
  · omega
  · simp

theorem capFold_eq_take (limit : ℕ) (l : List String) (s t : List String)
    (h : s = t.take limit) :
    l.foldl (capStep limit) s = (l.foldl dedupStep t).take limit := by
  induction l generalizing s t with
  | nil => simpa using h
  | cons a l ih =>
    simp only [List.foldl_cons]
    by_cases hfull : limit ≤ s.length
    · have hslen : s.length = limit := by
        have := congrArg List.length h
        simp only [List.length_take] at this
        omega
      have htlen : limit ≤ t.length := by
        have := congrArg List.length h
        simp only [List.length_take] at this
        omega
      have hstep : capStep limit s a = s := by simp [capStep, hfull]
      rw [hstep]
      apply ih
      rw [h]
      unfold dedupStep
      split
      · rfl
      · exact (List.take_append_of_le_length htlen).symm
    · have htlen : t.length < limit := by
        have := congrArg List.length h
        simp only [List.length_take] at this
        omega
      have hst : s = t := by
        rw [h, List.take_of_length_le (by omega)]
      subst hst
      have hstep : capStep limit s a = dedupStep s a := by
        simp [capStep, hfull]
      rw [hstep]
      apply ih
      have hlen : (dedupStep s a).length ≤ limit :=
        le_trans (length_dedupStep_le s a) (by omega)
      rw [List.take_of_length_le hlen]

theorem dedupFold_nodup (l : List String) (acc : List String) (h : acc.Nodup) :
    (l.foldl dedupStep acc).Nodup := by
  induction l generalizing acc with
  | nil => simpa using h
  | cons a l ih =>
    simp only [List.foldl_cons]
    apply ih
    unfold dedupStep
    split
    · exact h
    · rename_i hmem
      rw [List.nodup_append]
      exact ⟨h, List.nodup_singleton a, by
        intro x hx hx'
        simp only [List.mem_singleton] at hx'
        exact hmem (hx' ▸ hx)⟩

/-- C1: for every search page (anchor hrefs plus raw markup) and every
limit between 1 and 50, the candidate extraction returns at most limit
identifiers, never duplicates an identifier, equals the first-occurrence
deduplication of the structured-pass captures followed by the raw-pass
captures truncated to the limit (order of first appearance across both
passes), and empty markup yields the empty sequence. -/
theorem candidate_extractor_spec (anchorHrefs : List String) (html : String) (limit : ℕ)
    (h1 : 1 ≤ limit) (h2 : limit ≤ 50) :
    (extractCandidates anchorHrefs html limit).length ≤ limit ∧
    (extractCandidates anchorHrefs html limit).Nodup ∧
    extractCandidates anchorHrefs html limit
      = (dedupFirst (anchorHrefs.filterMap hrefId ++ rawIds html)).take limit ∧
    extractCandidates [] "" limit = [] := by
  have key : extractCandidates anchorHrefs html limit
      = (dedupFirst (anchorHrefs.filterMap hrefId ++ rawIds html)).take limit := by
    unfold extractCandidates anchorPass dedupFirst
    rw [fillLoop_eq_foldl, anchorPass_eq_foldl, ← List.foldl_append,
      capFold_eq_take limit _ ([] : List String) ([] : List String) (by simp),
      List.foldl_append, List.take_take]
    simp
  refine ⟨?_, ?_, key, ?_⟩
  · rw [key]
    exact List.length_take_le limit _
  · rw [key]
    exact (dedupFold_nodup _ [] (List.nodup_nil)).sublist (List.take_sublist limit _)
  · have h0 : fillLoop limit (anchorPass limit []) (rawIds "") = [] := rfl
    unfold extractCandidates
    rw [h0, List.take_nil]

theorem candidate_extractor_spec_witness :
    1 ≤ 10 ∧ (10 : ℕ) ≤ 50 ∧
    (extractCandidates ["/store/apps/details?id=com.foo.app&hl=en", "nope"]
      "<a>/store/apps/details?id=com.bar.app /store/apps/details?id=com.foo.app</a>" 10).Nodup :=
  ⟨by decide, by decide,
   (candidate_extractor_spec ["/store/apps/details?id=com.foo.app&hl=en", "nope"]
      "<a>/store/apps/details?id=com.bar.app /store/apps/details?id=com.foo.app</a>" 10
      (by decide) (by decide)).2.1⟩

/-! ## Idempotence analysis of cleanText

cleanText removes the zero-width characters only after collapsing
whitespace runs, so a zero-width character standing between two whitespace
runs leaves a double space behind; on inputs free of the characters of
zwChar the normalizer is a projection.  The development below
characterises the collapse output (all whitespace is a single space
character and no two adjacent characters are both whitespace) and shows
the characterisation is preserved by trimming. -/

/-- No two adjacent characters are both whitespace. -/
def noAdjWs : List Char → Prop
  | [] => True
  | [_] => True
  | a :: b :: l => ¬(jsWs a = true ∧ jsWs b = true) ∧ noAdjWs (b :: l)

theorem noAdjWs_tail {c : Char} {cs : List Char} (h : noAdjWs (c :: cs)) : noAdjWs cs := by
  cases cs with
  | nil => trivial
  | cons d ds => exact h.2

theorem noAdjWs_cons_of (x : Char) (rest : List Char)
    (hx : ∀ d ds, rest = d :: ds → ¬(jsWs x = true ∧ jsWs d = true))
    (h : noAdjWs rest) : noAdjWs (x :: rest) := by
  cases rest with
  | nil => trivial
  | cons d ds => exact ⟨hx d ds rfl, h⟩

theorem noAdjWs_append_left : ∀ l₁ l₂ : List Char, noAdjWs (l₁ ++ l₂) → noAdjWs l₁
  | [], _, _ => trivial
  | [_], _, _ => trivial
  | _ :: b :: l₁, l₂, h => ⟨h.1, noAdjWs_append_left (b :: l₁) l₂ h.2⟩

theorem noAdjWs_append_right : ∀ l₁ l₂ : List Char, noAdjWs (l₁ ++ l₂) → noAdjWs l₂
  | [], _, h => h
  | [_], _, h => noAdjWs_tail h
  | _ :: b :: l₁, l₂, h => noAdjWs_append_right (b :: l₁) l₂ h.2

theorem mem_collapseGo {c : Char} : ∀ (l : List Char) (b : Bool),
    c ∈ collapseGo b l → c = ' ' ∨ c ∈ l := by
  intro l
  induction l with
  | nil => intro b hc; simp [collapseGo] at hc
  | cons d ds ih =>
    intro b hc
    by_cases hd : jsWs d = true
    · simp only [collapseGo, hd, if_true] at hc
      cases b with
      | true =>
        rcases ih true hc with h | h
        · exact Or.inl h
        · exact Or.inr (List.mem_cons_of_mem d h)
      | false =>
        rcases List.mem_cons.mp hc with h | h
        · exact Or.inl h
        · rcases ih true h with h2 | h2
          · exact Or.inl h2
          · exact Or.inr (List.mem_cons_of_mem d h2)
    · simp only [collapseGo, hd, if_false] at hc
      rcases List.mem_cons.mp hc with h | h
      · exact Or.inr (h ▸ List.mem_cons_self d ds)
      · rcases ih false h with h2 | h2
        · exact Or.inl h2
        · exact Or.inr (List.mem_cons_of_mem d h2)

theorem collapseGo_allSpace {c : Char} : ∀ (l : List Char) (b : Bool),
    c ∈ collapseGo b l → jsWs c = true → c = ' ' := by
  intro l
  induction l with
  | nil => intro b hc _; simp [collapseGo] at hc
  | cons d ds ih =>
    intro b hc hw
    by_cases hd : jsWs d = true
    · simp only [collapseGo, hd, if_true] at hc
      cases b with
      | true => exact ih true hc hw
      | false =>
        rcases List.mem_cons.mp hc with h | h
        · exact h
        · exact ih true h hw
    · simp only [collapseGo, hd, if_false] at hc
      rcases List.mem_cons.mp hc with h | h
      · rw [h] at hw
        rw [hw] at hd
        exact absurd rfl hd
      · exact ih false h hw

theorem collapseGo_true_head : ∀ (l : List Char) (d : Char) (ds : List Char),
    collapseGo true l = d :: ds → jsWs d = false := by
  intro l
  induction l with
  | nil => intro d ds h; simp [collapseGo] at h
  | cons c cs ih =>
    intro d ds h
    by_cases hc : jsWs c = true
    · simp only [collapseGo, hc, if_true] at h
      exact ih d ds h
    · simp only [collapseGo, hc, if_false] at h
      injection h with h1 _
      rw [← h1]
      exact Bool.not_eq_true _ ▸ Bool.of_not_eq_true hc

theorem collapseGo_noAdj : ∀ (l : List Char) (b : Bool), noAdjWs (collapseGo b l) := by
  intro l
  induction l with
  | nil => intro b; trivial
  | cons c cs ih =>
    intro b
    by_cases hc : jsWs c = true
    · cases b with
      | true =>
        simp only [collapseGo, hc, if_true]
        exact ih true
      | false =>
        simp only [collapseGo, hc, if_true]
        refine noAdjWs_cons_of _ _ ?_ (ih true)
        intro d ds hd hpair
        rw [collapseGo_true_head cs d ds hd] at hpair
        exact absurd hpair.2 (by simp)
    · simp only [collapseGo, hc, if_false]
      refine noAdjWs_cons_of _ _ ?_ (ih false)
      intro d ds _ hpair
      exact hc hpair.1

theorem collapseGo_fix : ∀ l : List Char, noAdjWs l →
    (∀ c ∈ l, jsWs c = true → c = ' ') →
    collapseGo false l = l ∧
      (∀ d ds, l = d :: ds → jsWs d = false → collapseGo true l = l) := by
  intro l
  induction l with
  | nil =>
    intro _ _
    refine ⟨rfl, ?_⟩
    intro d ds h _
    simp at h
  | cons c cs ih =>
    intro hadj hsp
    obtain ⟨ih1, ih2⟩ := ih (noAdjWs_tail hadj)
      (fun x hx => hsp x (List.mem_cons_of_mem _ hx))
    by_cases hc : jsWs c = true
    · have hceq : c = ' ' := hsp c (List.mem_cons_self c cs) hc
      have hstep : collapseGo false (c :: cs) = ' ' :: collapseGo true cs := by
        simp [collapseGo, hc]
      have htrue : collapseGo true cs = cs := by
        cases hcs : cs with
        | nil => rfl
        | cons d ds =>
          have hd : jsWs d = false := by
            rw [hcs] at hadj
            by_contra hdt
            exact hadj.1 ⟨hc, Bool.of_not_eq_false hdt⟩
          exact hcs ▸ ih2 d ds hcs hd
      refine ⟨by rw [hstep, htrue, hceq], ?_⟩
      intro d ds h hw
      injection h with h1 _
      rw [← h1] at hw
      rw [hw] at hc
      exact absurd hc (by simp)
    · have hcf : jsWs c = false := Bool.of_not_eq_true hc
      have hstep : collapseGo false (c :: cs) = c :: collapseGo false cs := by
        simp [collapseGo, hcf]
      have hstep2 : collapseGo true (c :: cs) = c :: collapseGo false cs := by
        simp [collapseGo, hcf]
      exact ⟨by rw [hstep, ih1], fun d ds _ _ => by rw [hstep2, ih1]⟩

theorem dropWhile_head_false (p : Char → Bool) : ∀ (l : List Char) (d : Char) (ds : List Char),
    l.dropWhile p = d :: ds → p d = false := by
  intro l
  induction l with
  | nil => intro d ds h; simp at h
  | cons c cs ih =>
    intro d ds h
    by_cases pc : p c = true
    · rw [List.dropWhile_cons] at h
      simp only [pc, if_true] at h
      exact ih d ds h
    · rw [List.dropWhile_cons] at h
      simp only [pc, if_false] at h
      injection h with h1 _
      rw [← h1]
      exact Bool.of_not_eq_true pc

theorem dropWhile_idem (p : Char → Bool) (l : List Char) :
    (l.dropWhile p).dropWhile p = l.dropWhile p := by
  cases h : l.dropWhile p with
  | nil => rfl
  | cons d ds => simp [List.dropWhile_cons, dropWhile_head_false p l d ds h]

theorem jsTrim_sublist (l : List Char) : List.Sublist (jsTrim l) l := by
  unfold jsTrim
  have h1 : List.Sublist (l.dropWhile jsWs) l := (List.dropWhile_suffix jsWs).sublist
  have h2 : List.Sublist ((l.dropWhile jsWs).reverse.dropWhile jsWs)
      (l.dropWhile jsWs).reverse := (List.dropWhile_suffix jsWs).sublist
  have h3 := h2.reverse
  rw [List.reverse_reverse] at h3
  exact h3.trans h1

theorem jsTrim_prefix_dropWhile (l : List Char) :
    List.IsPrefix (jsTrim l) (l.dropWhile jsWs) := by
  unfold jsTrim
  have h := List.dropWhile_suffix (l := (l.dropWhile jsWs).reverse) jsWs
  have h2 := List.reverse_prefix.mpr h
  rwa [List.reverse_reverse] at h2

theorem jsTrim_noAdj (l : List Char) (h : noAdjWs l) : noAdjWs (jsTrim l) := by
  have h1 : noAdjWs (l.dropWhile jsWs) := by
    obtain ⟨t, ht⟩ := List.dropWhile_suffix (l := l) jsWs
    exact noAdjWs_append_right t _ (ht.symm ▸ h)
  obtain ⟨t2, ht2⟩ := jsTrim_prefix_dropWhile l
  exact noAdjWs_append_left _ t2 (ht2.symm ▸ h1)

theorem jsTrim_idem (l : List Char) : jsTrim (jsTrim l) = jsTrim l := by
  cases hy : jsTrim l with
  | nil => rfl
  | cons y0 ys =>
    obtain ⟨t2, ht2⟩ := jsTrim_prefix_dropWhile l
    rw [hy] at ht2
    have hy0 : jsWs y0 = false := by
      refine dropWhile_head_false jsWs l y0 (ys ++ t2) ?_
      rw [← ht2]
      simp
    have hlt : (y0 :: ys).dropWhile jsWs = y0 :: ys := by
      simp [List.dropWhile_cons, hy0]
    show jsTrim (y0 :: ys) = y0 :: ys
    unfold jsTrim
    rw [hlt]
    have hv : (y0 :: ys).reverse.dropWhile jsWs = (y0 :: ys).reverse := by
      have hrev : (y0 :: ys).reverse = ((l.dropWhile jsWs).reverse).dropWhile jsWs := by
        rw [← hy]
        unfold jsTrim
        rw [List.reverse_reverse]
      rw [hrev, dropWhile_idem]
    rw [hv, List.reverse_reverse]

/-- C9 counterexample: cleanText is not idempotent.  A zero-width space
separating two ordinary spaces survives the whitespace collapse (it is not
regex whitespace) and is removed only afterwards, leaving a double space
that a second application collapses. -/
theorem cleanText_not_idempotent :
    cleanText (some (cleanText (some "a \u200B b"))) ≠ cleanText (some "a \u200B b") := by
  decide

/-- C9 amended: cleanText is idempotent on every string containing none of
the characters U+200B through U+200D, and null or empty input yields the
empty string without error.  A byte-order mark U+FEFF, also removed by the
second replace, does not break idempotence because it is regex whitespace
and is already collapsed into a plain space by the first replace, so the
hypothesis excludes only the three zero-width joiner characters. -/
theorem cleanText_idempotent_amended :
    (∀ s : String, (∀ c ∈ s.data, ¬('\u200B' ≤ c ∧ c ≤ '\u200D')) →
      cleanText (some (cleanText (some s))) = cleanText (some s)) ∧
    cleanText none = "" ∧ cleanText (some "") = "" := by
  refine ⟨?_, rfl, rfl⟩
  intro s hzw
  by_cases hs : s = ""
  · rw [hs]; rfl
  · have hcol_zw : ∀ c ∈ collapseWs s.data, zwChar c = false := by
      intro c hc
      by_cases hw : jsWs c = true
      · rw [collapseGo_allSpace s.data false hc hw]
        rfl
      · rcases mem_collapseGo s.data false hc with h | h
        · rw [h]; rfl
        · have hrange := hzw c h
          have hfe : c ≠ '\uFEFF' := by
            intro hcf
            rw [hcf] at hw
            exact hw (by decide)
          have hb1 : ('\u200B' ≤ c && c ≤ '\u200D') = false := by
            refine Bool.of_not_eq_true ?_
            intro hb
            rw [Bool.and_eq_true, decide_eq_true_eq, decide_eq_true_eq] at hb
            exact hrange hb
          have hb2 : (decide (c = '\uFEFF')) = false := by
            simp [hfe]
          simp [zwChar, hb1, hb2]
    have hrm : removeZw (collapseWs s.data) = collapseWs s.data := by
      unfold removeZw
      apply List.filter_eq_self.mpr
      intro c hc
      simp [hcol_zw c hc]
    have h1 : cleanText (some s) = String.mk (jsTrim (removeZw (collapseWs s.data))) := by
      have hred : cleanText (some s)
          = if s = "" then "" else String.mk (jsTrim (removeZw (collapseWs s.data))) := rfl
      rw [hred, if_neg hs]
    rw [hrm] at h1
    have hsub : List.Sublist (jsTrim (collapseWs s.data)) (collapseWs s.data) := jsTrim_sublist _
    have hsp_t : ∀ c ∈ jsTrim (collapseWs s.data), jsWs c = true → c = ' ' := fun c hc =>
      collapseGo_allSpace s.data false (hsub.mem hc)
    have hzw_t : ∀ c ∈ jsTrim (collapseWs s.data), zwChar c = false := fun c hc =>
      hcol_zw c (hsub.mem hc)
    have hadj_t : noAdjWs (jsTrim (collapseWs s.data)) :=
      jsTrim_noAdj _ (collapseGo_noAdj s.data false)
    have hcol_t : collapseWs (jsTrim (collapseWs s.data)) = jsTrim (collapseWs s.data) :=
      (collapseGo_fix _ hadj_t hsp_t).1
    have hrm_t : removeZw (jsTrim (collapseWs s.data)) = jsTrim (collapseWs s.data) := by
      unfold removeZw
      apply List.filter_eq_self.mpr
      intro c hc
      simp [hzw_t c hc]
    have htr_t : jsTrim (jsTrim (collapseWs s.data)) = jsTrim (collapseWs s.data) :=
      jsTrim_idem _
    rw [h1]
    by_cases ht0 : String.mk (jsTrim (collapseWs s.data)) = ""
    · rw [ht0]; rfl
    · have hred2 : cleanText (some (String.mk (jsTrim (collapseWs s.data))))
          = if String.mk (jsTrim (collapseWs s.data)) = "" then ""
            else String.mk (jsTrim (removeZw (collapseWs (jsTrim (collapseWs s.data))))) := rfl
      rw [hred2, if_neg ht0, hcol_t, hrm_t, htr_t]

theorem cleanText_idempotent_amended_witness :
    (∀ c ∈ ("\uFEFF hi   there ").data, ¬('\u200B' ≤ c ∧ c ≤ '\u200D')) ∧
    cleanText (some (cleanText (some "\uFEFF hi   there ")))
      = cleanText (some "\uFEFF hi   there ") :=
  ⟨by decide, cleanText_idempotent_amended.1 "\uFEFF hi   there " (by decide)⟩

/-! ## The suggestion endpoint (src/server.js lines 60-83)

The endpoint fetches a response text, tries JSON.parse on it, reads the
element at index 1 of the parsed data, and on a parse failure falls back
to a regex extraction whose captured bracket is itself JSON.parsed inside
the catch block.  JSON.parse is modelled by a fuel-driven recursive
descent over the character list (strings keep their escapes, numbers are
rationals; a Unicode escape denoting a lone surrogate is idealised as the
replacement of an invalid scalar, which no theorem below exercises). -/

inductive Json where
  | null : Json
  | bool : Bool → Json
  | num : ℚ → Json
  | str : String → Json
  | arr : List Json → Json
  | obj : List (String × Json) → Json

/-- JSON insignificant whitespace. -/
def jsonWs (c : Char) : Bool := c = ' ' || c = '\t' || c = '\n' || c = '\r'

/-- Value of a hexadecimal digit. -/
def hexVal (c : Char) : Option ℕ :=
  if '0' ≤ c ∧ c ≤ '9' then some (c.toNat - 48)
  else if 'a' ≤ c ∧ c ≤ 'f' then some (c.toNat - 87)
  else if 'A' ≤ c ∧ c ≤ 'F' then some (c.toNat - 55)
  else none

/-- Character denoted by a single-character JSON escape. -/
def escChar (e : Char) : Option Char :=
  if e = '"' then some '"'
  else if e = '\\' then some '\\'
  else if e = '/' then some '/'
  else if e = 'b' then some '\u0008'
  else if e = 'f' then some '\u000C'
  else if e = 'n' then some '\n'
  else if e = 'r' then some '\r'
  else if e = 't' then some '\t'
  else none

/-- Body of a JSON string after the opening quote: characters are
accumulated in reverse until the closing quote; escapes are decoded and a
raw control character is rejected. -/
def parseStrBody : List Char → List Char → Option (String × List Char)
  | _, [] => none
  | acc, '"' :: rest => some (String.mk acc.reverse, rest)
  | acc, '\\' :: 'u' :: h1 :: h2 :: h3 :: h4 :: rest =>
    (match hexVal h1, hexVal h2, hexVal h3, hexVal h4 with
    | some a, some b, some c, some d =>
      parseStrBody (Char.ofNat (((a * 16 + b) * 16 + c) * 16 + d) :: acc) rest
    | _, _, _, _ => none)
  | acc, '\\' :: e :: rest =>
    (match escChar e with
    | some c => parseStrBody (c :: acc) rest
    | none => none)
  | acc, c :: rest => if c.toNat < 32 then none else parseStrBody (c :: acc) rest

/-- Fractional part of a JSON number: a dot must be followed by at least
one digit; absence of a dot contributes zero. -/
def parseFrac : List Char → Option (ℕ × ℕ × List Char)
  | '.' :: r =>
    let fp := r.takeWhile Char.isDigit
    if fp.isEmpty then none else some (digitsVal fp, fp.length, r.drop fp.length)
  | l => some (0, 0, l)

/-- Exponent digits with optional sign. -/
def parseExpRest (r : List Char) : Option (ℤ × List Char) :=
  let esgn : ℤ := if r.head? = some '-' then -1 else 1
  let r1 := if r.head? = some '-' || r.head? = some '+' then r.drop 1 else r
  let ed := r1.takeWhile Char.isDigit
  if ed.isEmpty then none else some (esgn * (digitsVal ed : ℤ), r1.drop ed.length)

/-- Exponent part of a JSON number; absence contributes exponent zero. -/
def parseExp : List Char → Option (ℤ × List Char)
  | 'e' :: r => parseExpRest r
  | 'E' :: r => parseExpRest r
  | l => some (0, l)

/-- JSON number grammar: optional minus, an integer part without a
leading zero unless it is exactly zero, optional fraction, optional
exponent. -/
def parseNum (l : List Char) : Option (ℚ × List Char) :=
  let sgn : ℚ := if l.head? = some '-' then -1 else 1
  let l1 := if l.head? = some '-' then l.drop 1 else l
  let ip := l1.takeWhile Char.isDigit
  if ip.isEmpty then none
  else if 1 < ip.length ∧ ip.head? = some '0' then none
  else
    match parseFrac (l1.drop ip.length) with
    | none => none
    | some (fn, fd, r3) =>
      match parseExp r3 with
      | none => none
      | some (ex, r4) =>
        some (sgn * ((digitsVal ip : ℚ) + (fn : ℚ) / ((10 : ℚ) ^ fd)) * ((10 : ℚ) ^ ex), r4)

/-- Insertion of an object member: JSON.parse keeps the position of an
existing key and overwrites its value. -/
def objInsert : List (String × Json) → String → Json → List (String × Json)
  | [], k, v => [(k, v)]
  | (k0, v0) :: rest, k, v =>
    if k0 = k then (k0, v) :: rest else (k0, v0) :: objInsert rest k v

mutual

/-- One JSON value, leading whitespace allowed.  The fuel only bounds the
recursion; every recursive call is preceded by the consumption of at least
one character every two calls, so the generous fuel chosen by jsParse
never runs out on its input. -/
def parseValue : ℕ → List Char → Option (Json × List Char)
  | 0, _ => none
  | fuel + 1, l =>
    match l.dropWhile jsonWs with
    | [] => none
    | 'n' :: r => if r.take 3 = ['u', 'l', 'l'] then some (Json.null, r.drop 3) else none
    | 't' :: r => if r.take 3 = ['r', 'u', 'e'] then some (Json.bool true, r.drop 3) else none
    | 'f' :: r => if r.take 4 = ['a', 'l', 's', 'e'] then some (Json.bool false, r.drop 4) else none
    | '"' :: r =>
      (match parseStrBody [] r with
      | some (s, rest) => some (Json.str s, rest)
      | none => none)
    | '[' :: r => parseArrayRest fuel r
    | '{' :: r => parseObjRest fuel r
    | l2 =>
      (match parseNum l2 with
      | some (q, rest) => some (Json.num q, rest)
      | none => none)

/-- Array continuation after the opening bracket. -/
def parseArrayRest : ℕ → List Char → Option (Json × List Char)
  | 0, _ => none
  | fuel + 1, l =>
    match l.dropWhile jsonWs with
    | ']' :: r => some (Json.arr [], r)
    | l2 =>
      match parseValue fuel l2 with
      | none => none
      | some (v, rest) => parseArrayElems fuel [v] rest

/-- Further array elements, accumulated in reverse. -/
def parseArrayElems : ℕ → List Json → List Char → Option (Json × List Char)
  | 0, _, _ => none
  | fuel + 1, acc, l =>
    match l.dropWhile jsonWs with
    | ',' :: r =>
      (match parseValue fuel r with
      | none => none
      | some (v, rest) => parseArrayElems fuel (v :: acc) rest)
    | ']' :: r => some (Json.arr acc.reverse, r)
    | _ => none

/-- Object continuation after the opening brace. -/
def parseObjRest : ℕ → List Char → Option (Json × List Char)
  | 0, _ => none
  | fuel + 1, l =>
    match l.dropWhile jsonWs with
    | '}' :: r => some (Json.obj [], r)
    | '"' :: r =>
      (match parseStrBody [] r with
      | none => none
      | some (k, rest) => parseMember fuel [] k rest)
    | _ => none

/-- A member value after its key, then the rest of the object. -/
def parseMember : ℕ → List (String × Json) → String → List Char → Option (Json × List Char)
  | 0, _, _, _ => none
  | fuel + 1, acc, k, l =>
    match l.dropWhile jsonWs with
    | ':' :: r =>
      (match parseValue fuel r with
      | none => none
      | some (v, rest) => parseObjElems fuel (objInsert acc k v) rest)
    | _ => none

/-- Further object members. -/
def parseObjElems : ℕ → List (String × Json) → List Char → Option (Json × List Char)
  | 0, _, _ => none
  | fuel + 1, acc, l =>
    match l.dropWhile jsonWs with
    | ',' :: r =>
      (match r.dropWhile jsonWs with
      | '"' :: r2 =>
        (match parseStrBody [] r2 with
        | none => none
        | some (k, rest) => parseMember fuel acc k rest)
      | _ => none)
    | '}' :: r => some (Json.obj acc, r)
    | _ => none

end

/-- Model of JSON.parse: a single value with only whitespace allowed
after it.  The fuel is twice the input length plus two, which bounds any
possible chain of recursive calls on the input. -/
def jsParse (txt : String) : Option Json :=
  match parseValue (2 * txt.data.length + 2) txt.data with
  | none => none
  | some (v, rest) => if (rest.dropWhile jsonWs).isEmpty then some v else none

/-! ## The fallback regex of line 73 and the response processing -/

/-- Characters matched by an unflagged dot in a JavaScript regex: all but
the line terminators. -/
def dotChar (c : Char) : Bool :=
  !(c = '\n' || c = '\r' || c = '\u2028' || c = '\u2029')

/-- Tail of the fallback regex after the quote and comma: optional
whitespace, then a bracket, a non-empty run of characters other than a
closing bracket, and the closing bracket; the capture is the whole
bracketed group.  Since no character of the whitespace class or the run
class equals the character that ends it, the greedy runs need no
backtracking. -/
def bracketCapture (l : List Char) : Option (List Char) :=
  match l.dropWhile jsWs with
  | '[' :: r2 =>
    let run := r2.takeWhile (fun c => !(c = ']'))
    if run.isEmpty then none
    else
      match r2.drop run.length with
      | ']' :: _ => some ('[' :: (run ++ [']']))
      | _ => none
  | _ => none

/-- Lazy middle of the fallback regex: the shortest growth of the lazy
dot-star such that a quote and comma followed by a bracket capture comes
next.  On failure the lazy group grows one character, and the quote
character itself is matched by the dot, so a failed attempt at a quote
simply advances past it. -/
def suggestTail : List Char → Option (List Char)
  | [] => none
  | '"' :: ',' :: r =>
    (match bracketCapture r with
    | some cap => some cap
    | none => suggestTail (',' :: r))
  | c :: cs => if dotChar c then suggestTail cs else none

/-- Leftmost match of the fallback regex: start positions are tried left
to right, each requiring an opening bracket and a quote before the lazy
middle. -/
def suggestScan : List Char → Option (List Char)
  | [] => none
  | '[' :: '"' :: rest =>
    (match suggestTail rest with
    | some cap => some cap
    | none => suggestScan ('"' :: rest))
  | _ :: cs => suggestScan cs

/-- The captured group of the fallback regex of line 73, if any. -/
def suggestCapture (txt : String) : Option String :=
  (suggestScan txt.data).map String.mk

/-- JavaScript member access at index 1 on a parsed JSON value: array
indexing, object property lookup under the key 1, character access on a
string; numbers and booleans yield undefined (none).  Accessing a member
of null throws, which the caller models separately. -/
def jsIndex1 : Json → Option Json
  | Json.arr l => l.get? 1
  | Json.obj ms => (ms.find? (fun p => p.1 = "1")).map Prod.snd
  | Json.str s => (s.data.get? 1).map (fun c => Json.str (String.mk [c]))
  | _ => none

/-- The suggestions value of the success branch of line 70: the element
at index 1 when it is an array, else the empty array. -/
def secondArray (v : Json) : List Json :=
  match jsIndex1 v with
  | some (Json.arr l) => l
  | _ => []

/-- Outcome of the suggestion-response processing: a JSON suggestions
value, or the error response of the outer catch (HTTP 500). -/
inductive SuggestResult where
  | ok : Json → SuggestResult
  | err : SuggestResult

/-- The catch block of lines 71-78: regex extraction, then JSON.parse of
the captured bracket.  That inner JSON.parse runs inside the catch block,
so its failure propagates to the outer catch and produces the error
response rather than an empty list. -/
def suggestFallback (txt : String) : SuggestResult :=
  match suggestCapture txt with
  | some cap =>
    (match jsParse cap with
    | some w => SuggestResult.ok w
    | none => SuggestResult.err)
  | none => SuggestResult.ok (Json.arr [])

/-- The response-text processing of lines 67-78.  A parsed null sends the
flow into the catch block as well, because reading index 1 of null throws
a TypeError inside the inner try. -/
def suggestHandler (txt : String) : SuggestResult :=
  match jsParse txt with
  | some Json.null => suggestFallback txt
  | some v => SuggestResult.ok (Json.arr (secondArray v))
  | none => suggestFallback txt

/-- C4 counterexample: a response text on which JSON.parse fails, the
fallback regex matches, and the captured bracket is itself unparsable
makes the handler produce the error response, not an empty suggestion
list: the inner JSON.parse of the capture throws inside the catch block
and escapes to the outer catch. -/
theorem suggest_error_counterexample :
    suggestHandler "x[\"a\", [b]]" = SuggestResult.err := rfl

/-- C4 amended: if the response text parses as JSON, the handler returns
the element at JavaScript index 1 of the parsed value when that element is
an array and the empty list otherwise (a parsed null falls into the
fallback path, since reading index 1 of null throws); if JSON parsing
fails and the fallback regex does not match, the handler returns the empty
suggestion list; but if the regex matches, the captured bracket is parsed
and a failure of that parse yields the error response rather than an empty
list. -/
theorem suggest_behavior_amended :
    (∀ txt v, jsParse txt = some v → v ≠ Json.null →
      suggestHandler txt = SuggestResult.ok (Json.arr (secondArray v))) ∧
    (∀ txt, jsParse txt = some Json.null → suggestHandler txt = suggestFallback txt) ∧
    (∀ txt, jsParse txt = none → suggestCapture txt = none →
      suggestHandler txt = SuggestResult.ok (Json.arr [])) ∧
    (∀ txt cap, jsParse txt = none → suggestCapture txt = some cap → jsParse cap = none →
      suggestHandler txt = SuggestResult.err) ∧
    (∀ txt cap w, jsParse txt = none → suggestCapture txt = some cap → jsParse cap = some w →
      suggestHandler txt = SuggestResult.ok w) := by
  refine ⟨?_, ?_, ?_, ?_, ?_⟩
  · intro txt v h hv
    unfold suggestHandler
    rw [h]
    cases v with
    | null => exact absurd rfl hv
    | bool b => rfl
    | num q => rfl
    | str s => rfl
    | arr l => rfl
    | obj ms => rfl
  · intro txt h
    unfold suggestHandler
    rw [h]
  · intro txt h hc
    unfold suggestHandler suggestFallback
    rw [h, hc]
  · intro txt cap h hc hcap
    unfold suggestHandler suggestFallback
    rw [h, hc]
    dsimp only
    rw [hcap]
  · intro txt cap w h hc hcap
    unfold suggestHandler suggestFallback
    rw [h, hc]
    dsimp only
    rw [hcap]

theorem suggest_behavior_amended_witness :
    jsParse "[\"q\", [\"a\",\"b\"]]"
      = some (Json.arr [Json.str "q", Json.arr [Json.str "a", Json.str "b"]]) ∧
    Json.arr [Json.str "q", Json.arr [Json.str "a", Json.str "b"]] ≠ Json.null ∧
    suggestHandler "[\"q\", [\"a\",\"b\"]]"
      = SuggestResult.ok (Json.arr [Json.str "a", Json.str "b"]) :=
  ⟨rfl, fun h => Json.noConfusion h,
    suggest_behavior_amended.1 "[\"q\", [\"a\",\"b\"]]"
      (Json.arr [Json.str "q", Json.arr [Json.str "a", Json.str "b"]])
      rfl (fun h => Json.noConfusion h)⟩

/-! ## Detail extraction (src/server.js lines 140-237)

The browser-side evaluate result of lines 156-177 together with the
cheerio lookups of lines 183-198 are abstracted as the fields of
DetailData (the raw ld+json blob of line 160 is stored by the source but
never read afterwards, so it is omitted).  buildRecord embeds the pure
record assembly of lines 179-226; a candidate whose page interaction
throws before the record is pushed is represented by a fetch result of
none and receives the minimal record of line 232. -/

structure DetailData where
  title : Option String
  description : Option String
  rating : Option String
  installs : Option String
  developer : Option String
  descNodeText : String
  downloadsDivText : String
  interactionCount : Option String
  plusDownloadsText : String

structure CompetitorRecord where
  package : String
  title : String
  description : String
  installs : JsValue
  rating : JsValue
  developer : Option String

/-- Case-insensitive match of a fixed pattern at the head of the text,
returning the remainder. -/
def ciLitAt : List Char → List Char → Option (List Char)
  | [], l => some l
  | _ :: _, [] => none
  | p :: ps, c :: cs => if c.toLower = p.toLower then ciLitAt ps cs else none

/-- Digits or a dot: the capture class of the three rating patterns. -/
def numDotChar (c : Char) : Bool := c.isDigit || c = '.'

/-- First rating pattern at one position: a non-empty digit-dot run, then
optional whitespace, the words out of (with a literal single space), more
optional whitespace, and the digit five.  The greedy run needs no
backtracking because no later literal character belongs to its class. -/
def ratingPat1At (l : List Char) : Option (List Char) :=
  let run := l.takeWhile numDotChar
  if run.isEmpty then none
  else
    match ciLitAt "out of".data ((l.drop run.length).dropWhile jsWs) with
    | none => none
    | some r2 =>
      match r2.dropWhile jsWs with
      | '5' :: _ => some run
      | _ => none

/-- Leftmost match of the first rating pattern. -/
def ratingPat1 : List Char → Option (List Char)
  | [] => none
  | c :: cs =>
    match ratingPat1At (c :: cs) with
    | some cap => some cap
    | none => ratingPat1 cs

/-- Second rating pattern at one position: a digit-dot run, optional
whitespace, the word star. -/
def ratingPat2At (l : List Char) : Option (List Char) :=
  let run := l.takeWhile numDotChar
  if run.isEmpty then none
  else
    match ciLitAt "star".data ((l.drop run.length).dropWhile jsWs) with
    | some _ => some run
    | none => none

/-- Leftmost match of the second rating pattern. -/
def ratingPat2 : List Char → Option (List Char)
  | [] => none
  | c :: cs =>
    match ratingPat2At (c :: cs) with
    | some cap => some cap
    | none => ratingPat2 cs

/-- Third rating pattern at one position: the word Rated, optional
whitespace, then the digit-dot capture. -/
def ratingPat3At (l : List Char) : Option (List Char) :=
  match ciLitAt "rated".data l with
  | none => none
  | some r1 =>
    let run := (r1.dropWhile jsWs).takeWhile numDotChar
    if run.isEmpty then none else some run

/-- Leftmost match of the third rating pattern. -/
def ratingPat3 : List Char → Option (List Char)
  | [] => none
  | c :: cs =>
    match ratingPat3At (c :: cs) with
    | some cap => some cap
    | none => ratingPat3 cs

/-- The rating-label pattern chain of line 208: the out-of-five pattern,
else the star pattern, else the Rated pattern; the captured group of the
first one that matches. -/
def ratingExtract (label : List Char) : Option (List Char) :=
  match ratingPat1 label with
  | some cap => some cap
  | none =>
    match ratingPat2 label with
    | some cap => some cap
    | none => ratingPat3 label

/-- Digits, comma or dot: the leading class of the first alternative of
the installs regex of line 201. -/
def numCommaDot (c : Char) : Bool := c.isDigit || c = ',' || c = '.'

/-- First alternative of the installs regex at one position: a non-empty
digit-comma-dot run, an optional plus, optional whitespace, and an
optional downloads or installs word (case-insensitive); everything after
the run is optional, so the match never fails once the run is
non-empty. -/
def instAlt1At (l : List Char) : Option (List Char) :=
  let run := l.takeWhile numCommaDot
  if run.isEmpty then none
  else
    let r1 := l.drop run.length
    let plus : List Char := if r1.head? = some '+' then ['+'] else []
    let r2 := r1.drop plus.length
    let wsRun := r2.takeWhile jsWs
    let r3 := r2.drop wsRun.length
    let word : List Char :=
      match ciLitAt "downloads".data r3 with
      | some _ => r3.take 9
      | none =>
        match ciLitAt "installs".data r3 with
        | some _ => r3.take 8
        | none => []
    some (run ++ plus ++ wsRun ++ word)

/-- Second alternative: a digit-dot run, optional whitespace, and the
letter M in either case. -/
def instAlt2At (l : List Char) : Option (List Char) :=
  let run := l.takeWhile numDotChar
  if run.isEmpty then none
  else
    let wsRun := (l.drop run.length).takeWhile jsWs
    match (l.drop run.length).drop wsRun.length with
    | c :: _ => if c = 'M' ∨ c = 'm' then some (run ++ wsRun ++ [c]) else none
    | [] => none

/-- Third alternative: a digit run, optional whitespace, and the letter K
in either case. -/
def instAlt3At (l : List Char) : Option (List Char) :=
  let run := l.takeWhile Char.isDigit
  if run.isEmpty then none
  else
    let wsRun := (l.drop run.length).takeWhile jsWs
    match (l.drop run.length).drop wsRun.length with
    | c :: _ => if c = 'K' ∨ c = 'k' then some (run ++ wsRun ++ [c]) else none
    | [] => none

/-- The three alternatives tried in order at one position. -/
def instMatchAt (l : List Char) : Option (List Char) :=
  match instAlt1At l with
  | some m => some m
  | none =>
    match instAlt2At l with
    | some m => some m
    | none => instAlt3At l

/-- Leftmost full match of the installs regex of line 201. -/
def instMatch : List Char → Option (List Char)
  | [] => none
  | c :: cs =>
    match instMatchAt (c :: cs) with
    | some m => some m
    | none => instMatch cs

/-- The falsy-to-null coercion of lines 215-216 and 224: a JavaScript
or-expression with null replaces NaN and zero (and null itself) by null
and keeps every other number. -/
def jsOrNull : JsValue → JsValue
  | JsValue.num q => if q = 0 then JsValue.null else JsValue.num q
  | _ => JsValue.null

/-- Record assembly of lines 179-226 for one candidate whose detail page
was extracted successfully. -/
def buildRecord (pkg : String) (d : DetailData) : CompetitorRecord :=
  let description0 : Option String :=
    match d.description with
    | some s => if s = "" then none else some s
    | none => none
  let description1 : Option String :=
    match description0 with
    | some s => some s
    | none => if d.descNodeText = "" then none else some (cleanText (some d.descNodeText))
  let cands : List String :=
    [d.installs.getD "", d.downloadsDivText, d.interactionCount.getD "",
      d.plusDownloadsText].filter (fun s => s ≠ "")
  let instText : String := String.intercalate " | " cands
  let installs0 : Option String :=
    if instText = "" then none
    else
      match instMatch instText.data with
      | some m => some (String.mk m)
      | none => some instText
  let rating0 : Option String :=
    match d.rating with
    | some rl => if rl = "" then none else (ratingExtract rl.data).map String.mk
    | none => none
  let description2 : String :=
    match description1 with
    | some s => if s = "" then "" else cleanText (some s)
    | none => ""
  let title0 : Option String :=
    match d.title with
    | some s => if s = "" then none else some (cleanText (some s))
    | none => none
  let installs1 : JsValue := jsOrNull (parseInstallString installs0)
  let rating1 : JsValue :=
    match rating0 with
    | some rs =>
      if rs = "" then JsValue.null
      else
        match leadingFloat rs.data with
        | some q => JsValue.num q
        | none => JsValue.nan
    | none => JsValue.null
  { package := pkg
    title :=
      match title0 with
      | some t => if t = "" then pkg else t
      | none => pkg
    description := description2
    installs := installs1
    rating := rating1
    developer :=
      match d.developer with
      | some s => if s = "" then none else some s
      | none => none }

/-- The minimal record pushed by the catch block of line 232. -/
def degradedRecord (pkg : String) : CompetitorRecord :=
  { package := pkg, title := pkg, description := "", installs := JsValue.null,
    rating := JsValue.null, developer := none }

/-- The record produced for one candidate: the assembled record on
success, the minimal record when the detail extraction threw. -/
def recordFor (fetch : String → Option DetailData) (p : String) : CompetitorRecord :=
  match fetch p with
  | some d => buildRecord p d
  | none => degradedRecord p

/-- The sequential detail loop of lines 140-237: one record per candidate
in candidate order; a per-candidate failure is caught locally and never
aborts the remaining candidates. -/
def processCandidates (fetch : String → Option DetailData) (packages : List String) :
    List CompetitorRecord :=
  packages.map (recordFor fetch)

/-- One entry of the competitors array of line 300. -/
structure CompetitorOut where
  rank : ℕ
  package : String
  title : String
  rating : JsValue
  installs : JsValue
  developer : Option String

/-- Projection of one competitor record into the response entry with a
given rank. -/
def outOf (rank : ℕ) (r : CompetitorRecord) : CompetitorOut :=
  { rank := rank, package := r.package, title := r.title, rating := r.rating,
    installs := r.installs, developer := r.developer }

/-- The response assembly of line 300: each record is emitted in order
with rank equal to its position plus one. -/
def competitorsOf (results : List CompetitorRecord) : List CompetitorOut :=
  results.enum.map (fun p => outOf (p.1 + 1) p.2)

/-- C7: whatever subset of candidates fails, the competitor list has one
record per candidate; a failed candidate receives exactly the degraded
record (title equal to the package id, empty description, null installs,
null rating, null developer) and a successful candidate its assembled
record, so no failure aborts the remaining candidates. -/
theorem per_candidate_failure_degraded (fetch : String → Option DetailData)
    (packages : List String) :
    (processCandidates fetch packages).length = packages.length ∧
    (∀ (i : ℕ) (p : String), packages[i]? = some p → fetch p = none →
      (processCandidates fetch packages)[i]? = some (degradedRecord p)) ∧
    (∀ (i : ℕ) (p : String) (d : DetailData), packages[i]? = some p → fetch p = some d →
      (processCandidates fetch packages)[i]? = some (buildRecord p d)) := by
  refine ⟨by simp [processCandidates], ?_, ?_⟩
  · intro i p hp hf
    simp only [processCandidates]
    rw [List.getElem?_map, hp]
    simp [recordFor, hf]
  · intro i p d hp hf
    simp only [processCandidates]
    rw [List.getElem?_map, hp]
    simp [recordFor, hf]

theorem per_candidate_failure_degraded_witness :
    (["com.a", "com.b", "com.c"] : List String)[1]? = some "com.b" ∧
    (fun _ : String => (none : Option DetailData)) "com.b" = none ∧
    (processCandidates (fun _ => none) ["com.a", "com.b", "com.c"]).length = 3 ∧
    (processCandidates (fun _ => none) ["com.a", "com.b", "com.c"])[1]?
      = some (degradedRecord "com.b") :=
  ⟨rfl, rfl,
    (per_candidate_failure_degraded (fun _ => none) ["com.a", "com.b", "com.c"]).1,
    (per_candidate_failure_degraded (fun _ => none) ["com.a", "com.b", "com.c"]).2.1
      1 "com.b" rfl rfl⟩

/-- C8: in the assembled response, the competitor list has one entry per
candidate, and the entry at each position carries rank equal to that
position plus one and the package id of the candidate discovered at that
position, regardless of which extractions succeeded or failed. -/
theorem competitor_rank_order (fetch : String → Option DetailData) (packages : List String) :
    (competitorsOf (processCandidates fetch packages)).length = packages.length ∧
    (∀ i, (competitorsOf (processCandidates fetch packages))[i]?
        = (packages[i]?).map (fun p => outOf (i + 1) (recordFor fetch p))) := by
  constructor
  · simp [competitorsOf, processCandidates]
  · intro i
    simp only [competitorsOf, processCandidates]
    rw [List.getElem?_map, List.getElem?_enum, List.getElem?_map]
    cases packages[i]? with
    | none => rfl
    | some p => rfl

/-- The or-null coercion yields null or a non-zero number, never NaN and
never zero. -/
theorem jsOrNull_spec (v : JsValue) :
    jsOrNull v = JsValue.null ∨ ∃ q : ℚ, q ≠ 0 ∧ jsOrNull v = JsValue.num q := by
  cases v with
  | null => exact Or.inl rfl
  | nan => exact Or.inl rfl
  | num q =>
    by_cases hq : q = 0
    · exact Or.inl (by simp [jsOrNull, hq])
    · exact Or.inr ⟨q, hq, by simp [jsOrNull, hq]⟩

/-- C10: the installs field of every successfully assembled competitor
record is either null or a non-zero (truthy) number: the or-null step
coerces a parse result of zero or NaN to null, so an install count of
exactly zero can never appear in the output. -/
theorem installs_null_or_truthy :
    (∀ pkg d, (buildRecord pkg d).installs = JsValue.null ∨
      ∃ q : ℚ, q ≠ 0 ∧ (buildRecord pkg d).installs = JsValue.num q) ∧
    jsOrNull (JsValue.num 0) = JsValue.null ∧
    jsOrNull JsValue.nan = JsValue.null := by
  refine ⟨?_, by simp [jsOrNull], rfl⟩
  intro pkg d
  exact jsOrNull_spec _

/-! ## Tokenizer and frequency aggregator (src/server.js lines 244-274)

The frequency map is a JavaScript Map: an association list in insertion
order whose set operation updates an existing key in place and appends a
new one.  tokenize embeds lines 249-252 (lowercase, curly quotes to an
apostrophe, every other character outside the letter-digit-whitespace-
apostrophe class to a space, split on whitespace runs, trim, drop
empties); the seed-keyword pass of lines 271-274 splits, trims and
lowercases the original keyword and adds twice the title boost for every
token of length at least three with no stopword filtering.  Case mapping
is modelled on the ASCII range (non-ASCII letters are replaced by a space
by the tokenizer class either way). -/

/-- The stopword set of lines 244-247. -/
def stopwords : List String :=
  ["the", "and", "for", "with", "from", "this", "that", "have", "your", "more", "what",
   "when", "where", "which", "will", "app", "apps", "android", "mobile", "free", "pro",
   "plus", "-", "a", "an", "in", "on", "of", "to", "by", "is", "are"]

/-- Curly single and double quotes normalised to an apostrophe. -/
def curlyToApos (c : Char) : Char :=
  if c = '‘' ∨ c = '’' ∨ c = '“' ∨ c = '”' then '\'' else c

/-- Characters kept by the tokenizer: lowercase letters, digits,
whitespace and the apostrophe; every other character becomes a space. -/
def tokAllowed (c : Char) : Bool :=
  ('a' ≤ c && c ≤ 'z') || c.isDigit || jsWs c || c = '\''

/-- Replacement of one character by the tokenizer class of line 251. -/
def tokReplace (c : Char) : Char := if tokAllowed c then c else ' '

/-- The JavaScript string split on a whitespace-run pattern: pieces
between maximal whitespace runs, with empty leading and trailing pieces
when the string starts or ends with whitespace.  The fuel starts above
the input length and every recursive step consumes at least one
character. -/
def splitWsGo : ℕ → List Char → List (List Char)
  | 0, _ => []
  | fuel + 1, l =>
    let tok := l.takeWhile (fun c => !jsWs c)
    let rest := l.drop tok.length
    match rest with
    | [] => [tok]
    | _ :: _ => tok :: splitWsGo fuel (rest.dropWhile jsWs)

/-- Split of a character list on whitespace runs. -/
def jsSplitWs (l : List Char) : List (List Char) := splitWsGo (l.length + 1) l

/-- The tokenizer of lines 249-252. -/
def tokenize (s : String) : List String :=
  ((jsSplitWs (((s.data.map Char.toLower).map curlyToApos).map tokReplace)).map
      (fun t => String.mk (jsTrim t))).filter (fun t => t ≠ "")

/-- Lookup in the frequency map with the undefined-to-zero coercion of
the or-expression in lines 260, 266 and 273. -/
def mapGetD : List (String × ℕ) → String → ℕ
  | [], _ => 0
  | (k0, v0) :: rest, k => if k0 = k then v0 else mapGetD rest k

/-- The Map set operation: an existing key keeps its position and
receives the new value, a new key is appended. -/
def mapSet : List (String × ℕ) → String → ℕ → List (String × ℕ)
  | [], k, v => [(k, v)]
  | (k0, v0) :: rest, k, v =>
    if k0 = k then (k0, v) :: rest else (k0, v0) :: mapSet rest k v

/-- One competitor-text token accumulated with a weight: tokens shorter
than three characters or in the stopword set are skipped (lines 259 and
265). -/
def addToken (w : ℕ) (m : List (String × ℕ)) (tk : String) : List (String × ℕ) :=
  if tk.length < 3 ∨ stopwords.contains tk then m
  else mapSet m tk (mapGetD m tk + w)

/-- The per-competitor accumulation of lines 255-268: title tokens with
the title boost, then description tokens with weight one. -/
def competitorStep (m : List (String × ℕ)) (r : CompetitorRecord) : List (String × ℕ) :=
  (tokenize r.description).foldl (addToken 1) ((tokenize r.title).foldl (addToken TITLE_BOOST) m)

/-- The seed-keyword tokens of line 271: split on whitespace runs, trim,
lowercase, drop empties. -/
def seedTokens (keyword : String) : List String :=
  ((jsSplitWs keyword.data).map (fun t => String.mk ((jsTrim t).map Char.toLower))).filter
    (fun t => t ≠ "")

/-- One seed token accumulated with twice the title boost; only the
length condition is checked, no stopword filtering (lines 272-274). -/
def seedStep (m : List (String × ℕ)) (t : String) : List (String × ℕ) :=
  if 3 ≤ t.length then mapSet m t (mapGetD m t + TITLE_BOOST * 2) else m

/-- The seed-keyword pass of lines 271-274. -/
def applySeed (m : List (String × ℕ)) (keyword : String) : List (String × ℕ) :=
  (seedTokens keyword).foldl seedStep m

/-- The whole frequency aggregation of lines 254-274. -/
def buildFreqMap (results : List CompetitorRecord) (keyword : String) : List (String × ℕ) :=
  applySeed (results.foldl competitorStep []) keyword

theorem mapGetD_mapSet (m : List (String × ℕ)) (k : String) (v : ℕ) (t : String) :
    mapGetD (mapSet m k v) t = if t = k then v else mapGetD m t := by
  induction m with
  | nil =>
    by_cases h : t = k
    · simp [mapSet, mapGetD, h]
    · simp [mapSet, mapGetD, h, Ne.symm h]
  | cons p rest ih =>
    obtain ⟨k0, v0⟩ := p
    by_cases h0 : k0 = k
    · subst h0
      by_cases ht : t = k0
      · subst ht
        simp [mapSet, mapGetD]
      · simp [mapSet, mapGetD, ht, Ne.symm ht]
    · by_cases ht : t = k0
      · subst ht
        have htk : ¬t = k := fun hh => h0 hh
        simp [mapSet, mapGetD, h0, htk]
      · simp [mapSet, mapGetD, h0, Ne.symm ht, ih]

theorem seedFold_getD (toks : List String) (m : List (String × ℕ)) (t : String) :
    mapGetD (toks.foldl seedStep m) t
      = mapGetD m t + (if 3 ≤ t.length then TITLE_BOOST * 2 * toks.count t else 0) := by
  by_cases hlen : 3 ≤ t.length
  · rw [if_pos hlen]
    induction toks generalizing m with
    | nil => simp
    | cons tk toks ih =>
      rw [List.foldl_cons, ih]
      by_cases het : t = tk
      · subst het
        rw [List.count_cons_self]
        have hstep : mapGetD (seedStep m t) t = mapGetD m t + TITLE_BOOST * 2 := by
          simp only [seedStep]
          rw [if_pos hlen, mapGetD_mapSet, if_pos rfl]
        rw [hstep]
        ring
      · have hne : ¬tk = t := fun hh => het hh.symm
        have hcount : (tk :: toks).count t = toks.count t := by
          rw [List.count_cons]
          simp [hne]
        rw [hcount]
        have hstep : mapGetD (seedStep m tk) t = mapGetD m t := by
          simp only [seedStep]
          by_cases hlen2 : 3 ≤ tk.length
          · rw [if_pos hlen2, mapGetD_mapSet, if_neg het]
          · rw [if_neg hlen2]
        rw [hstep]
  · rw [if_neg hlen, Nat.add_zero]
    induction toks generalizing m with
    | nil => rfl
    | cons tk toks ih =>
      rw [List.foldl_cons, ih]
      simp only [seedStep]
      by_cases hlen2 : 3 ≤ tk.length
      · have het : ¬t = tk := fun hh => hlen (hh ▸ hlen2)
        rw [if_pos hlen2, mapGetD_mapSet, if_neg het]
      · rw [if_neg hlen2]

/-- C6: the seed pass adds exactly twice the title boost (six) per
occurrence to every seed token of length at least three, with no stopword
filtering; in particular the seed the app with no competitors yields a map
holding both the (a stopword) and app with score six. -/
theorem seed_boost_spec :
    (∀ (m : List (String × ℕ)) (keyword t : String),
      mapGetD (applySeed m keyword) t
        = mapGetD m t
          + (if 3 ≤ t.length then TITLE_BOOST * 2 * ((seedTokens keyword).count t) else 0)) ∧
    buildFreqMap [] "the app" = [("the", 6), ("app", 6)] ∧
    stopwords.contains "the" = true := by
  refine ⟨?_, by decide, by decide⟩
  intro m keyword t
  exact seedFold_getD (seedTokens keyword) m t

end Aso
